import Mathlib

/-!
Verification of the structural YAML diff engine of `semihbkgr/yamldiff`
(package `pkg/diff`: `compare.go`, `types.go`, with `getNodePath` from
`format.go`).  The engine walks two parsed YAML syntax trees in parallel
and produces per-document, sorted lists of atomic differences.

The syntax tree is supplied by an external parser (`goccy/go-yaml`); the
engine consumes it through the Syntax Node contract of the spec (kind,
children, source line, path).  `Node` below is the shallow embedding of
that contract: each constructor carries the 1-based source line of the
node's token (`GetToken().Position.Line`), its path string (`GetPath()`,
a `$`-rooted path), and the kind-specific value.  Numeric float values
are represented as rationals: the parser only ever produces finite
decimal literals in a `FloatNode` (`.nan` parses to a `NanType` node),
so equality of the Go `float64` values coincides with equality of the
rationals.  Node kinds that `compareNodes` does not handle explicitly
(alias, anchor, tag, merge key) are carried by the `other` constructor,
with an opaque `content` payload standing for whatever data such a node
carries; their AST type (`Type()`) depends only on the kind, not on the
content, exactly as in the Go AST.
-/

/-- Kinds a YAML AST node not explicitly handled by `compareNodes` can
have (examples from the source's AST: alias, anchor, tag, merge key). -/
inductive OtherKind where
  | anchorKind
  | aliasKind
  | tagKind
  | mergeKeyKind
deriving DecidableEq, Repr

/-- The AST node type (`ast.NodeType` as returned by `Node.Type()`).
`otherType k` stands for the respective unhandled AST type (e.g.
`ast.AnchorType`); two unhandled nodes have the same AST type exactly
when their kinds agree. -/
inductive NodeType where
  | mappingType
  | sequenceType
  | stringType
  | literalType
  | integerType
  | floatType
  | boolType
  | infinityType
  | nullType
  | nanType
  | otherType (k : OtherKind)
deriving DecidableEq, Repr

/-- The Syntax Node (spec section 3): a parsed YAML value.  Mapping
children are the `MappingNode.Values` pairs, each keyed by the literal
key text `Key.String()`; sequence children are `SequenceNode.Values`.
Constructor argument order: source line, path, kind-specific value. -/
inductive Node where
  | mapping (line : Nat) (path : String) (values : List (String × Node))
  | sequence (line : Nat) (path : String) (values : List Node)
  | string (line : Nat) (path : String) (value : String)
  | literal (line : Nat) (path : String) (value : String)
  | integer (line : Nat) (path : String) (value : Int)
  | float (line : Nat) (path : String) (value : Rat)
  | bool (line : Nat) (path : String) (value : Bool)
  | infinity (line : Nat) (path : String) (positive : Bool)
  | null (line : Nat) (path : String)
  | nan (line : Nat) (path : String)
  | other (line : Nat) (path : String) (kind : OtherKind) (content : Nat)
deriving Repr

/-- `Node.Type()` of the Go AST. -/
def Node.typeOf : Node → NodeType
  | .mapping .. => .mappingType
  | .sequence .. => .sequenceType
  | .string .. => .stringType
  | .literal .. => .literalType
  | .integer .. => .integerType
  | .float .. => .floatType
  | .bool .. => .boolType
  | .infinity .. => .infinityType
  | .null .. => .nullType
  | .nan .. => .nanType
  | .other _ _ k _ => .otherType k

/-- `Node.GetToken().Position.Line`. -/
def Node.line : Node → Nat
  | .mapping l .. => l
  | .sequence l .. => l
  | .string l .. => l
  | .literal l .. => l
  | .integer l .. => l
  | .float l .. => l
  | .bool l .. => l
  | .infinity l .. => l
  | .null l .. => l
  | .nan l .. => l
  | .other l .. => l

/-- `Node.GetPath()`. -/
def Node.getPath : Node → String
  | .mapping _ p _ => p
  | .sequence _ p _ => p
  | .string _ p _ => p
  | .literal _ p _ => p
  | .integer _ p _ => p
  | .float _ p _ => p
  | .bool _ p _ => p
  | .infinity _ p _ => p
  | .null _ p => p
  | .nan _ p => p
  | .other _ p _ _ => p

/-- The Go type assertion `n.(*ast.MappingNode).Values` (only reached
when `n` is a mapping node). -/
def Node.mappingValues : Node → List (String × Node)
  | .mapping _ _ vs => vs
  | _ => []

/-- The Go type assertion `n.(*ast.SequenceNode).Values`. -/
def Node.sequenceValues : Node → List Node
  | .sequence _ _ vs => vs
  | _ => []

/-- `n.(*ast.IntegerNode).Value`. -/
def Node.integerValue : Node → Int
  | .integer _ _ v => v
  | _ => 0

/-- `n.(*ast.FloatNode).Value`. -/
def Node.floatValue : Node → Rat
  | .float _ _ v => v
  | _ => 0

/-- `n.(*ast.BoolNode).Value`. -/
def Node.boolValue : Node → Bool
  | .bool _ _ v => v
  | _ => false

/-- `n.(*ast.InfinityNode).Value` (`+Inf` or `-Inf`, kept as its sign). -/
def Node.infinityValue : Node → Bool
  | .infinity _ _ v => v
  | _ => false

mutual

/-- Structural size of a node, used only to provision fuel for the
comparator's recursion: the size strictly bounds the height of the
tree. -/
def Node.size : Node → Nat
  | .mapping _ _ vs => 1 + Node.entriesSize vs
  | .sequence _ _ vs => 1 + Node.listSize vs
  | .string .. => 1
  | .literal .. => 1
  | .integer .. => 1
  | .float .. => 1
  | .bool .. => 1
  | .infinity .. => 1
  | .null .. => 1
  | .nan .. => 1
  | .other .. => 1

/-- Combined size of a mapping's key/value entries. -/
def Node.entriesSize : List (String × Node) → Nat
  | [] => 0
  | (_, v) :: rest => 1 + Node.size v + Node.entriesSize rest

/-- Combined size of a sequence's values. -/
def Node.listSize : List Node → Nat
  | [] => 0
  | v :: rest => 1 + Node.size v + Node.listSize rest

end

/-- Size of an optional node. -/
def Node.optionSize : Option Node → Nat
  | none => 1
  | some n => 1 + n.size

/-- `stringNodeValue` (compare.go 326-335): the text of a string or
literal node, `""` for any other node. -/
def stringNodeValue : Node → String
  | .string _ _ v => v
  | .literal _ _ v => v
  | _ => ""

/-- The `DiffType` enum (types.go 8-12): `Added` iota 0, `Deleted` 1,
`Modified` 2. -/
inductive DiffType where
  | Added
  | Deleted
  | Modified
deriving DecidableEq, Repr

/-- The integer value of the `DiffType` constant (its iota). -/
def DiffType.toNat : DiffType → Nat
  | .Added => 0
  | .Deleted => 1
  | .Modified => 2

/-- `Diff` (types.go 15-18): one atomic difference, an optional left
node and an optional right node (`nil` modelled as `none`). -/
structure Diff where
  leftNode : Option Node
  rightNode : Option Node
deriving Repr

/-- `newDiff` (types.go 21-26). -/
def newDiff (left right : Option Node) : Diff := ⟨left, right⟩

/-- `Diff.Type` (types.go 29-37): `Added` if the left node is nil,
`Deleted` if the right node is nil, else `Modified`. -/
def Diff.diffType (d : Diff) : DiffType :=
  match d.leftNode with
  | none => .Added
  | some _ =>
    match d.rightNode with
    | none => .Deleted
    | some _ => .Modified

/-- `getNodePath` (format.go): the node's `GetPath()` with a leading
`$` byte removed (`if len(path) > 0 && path[0] == '$' { return
path[1:] }`); the empty string for a nil node. -/
def getNodePath : Option Node → String
  | none => ""
  | some n =>
    match n.getPath.data with
    | '$' :: rest => String.mk rest
    | _ => n.getPath

/-- `Diff.Path` (types.go 40-47): the right node's path for an added
difference, the left node's path otherwise. -/
def Diff.path (d : Diff) : String :=
  match d.diffType with
  | .Added => getNodePath d.rightNode
  | _ => getNodePath d.leftNode

/-- `compareOptions` (compare.go 142-144). -/
structure compareOptions where
  ignoreSeqOrder : Bool := false
deriving Repr

/-- `CompareOption` (compare.go 79): a functional option. -/
def CompareOption := compareOptions → compareOptions

/-- `IgnoreSeqOrder` (compare.go 83-85). -/
def IgnoreSeqOrder : CompareOption := fun o => { o with ignoreSeqOrder := true }

/-- `comparableNodes` (compare.go 208-215): string and literal nodes
are mutually comparable; any other pair is comparable exactly when the
AST types coincide. -/
def comparableNodes (leftNode rightNode : Node) : Bool :=
  match leftNode.typeOf with
  | .stringType | .literalType =>
    rightNode.typeOf == .stringType || rightNode.typeOf == .literalType
  | _ => leftNode.typeOf == rightNode.typeOf

/-- `mappingValueNodesIntoMap` (compare.go 260-266) builds a Go map
from key text to mapping value; a duplicate key keeps its last value.
A Go map has no iteration order, so the embedding fixes one admissible
linearization: the surviving (last) occurrences in document order. -/
def mappingValueNodesIntoMap : List (String × Node) → List (String × Node)
  | [] => []
  | (k, v) :: rest =>
    if (List.lookup k rest).isSome then mappingValueNodesIntoMap rest
    else (k, v) :: mappingValueNodesIntoMap rest

/-- `wrapMappingValueNode` (compare.go 251-258) re-wraps a bare
`MappingValueType` value in a `MappingNode` before reporting it.  Under
the Syntax Node contract (spec section 3) a mapping's values are plain
nodes — the single-pair collapse is an artifact of the parsing library
(spec section 9) — so the wrapped case never arises here and the
function is the identity. -/
def wrapMappingValueNode (node : Node) : Node := node

/-- The first loop of `compareMappingNodes` (compare.go 221-229): for
each left key in map order, a deleted diff if the key is absent on the
right, else the recursive comparison of the two values.  `cmp` is the
recursive call to `compareNodes` with the ambient options. -/
def compareMappingKeys (cmp : Option Node → Option Node → List Diff) :
    List (String × Node) → List (String × Node) → List Diff
  | [], _ => []
  | (k, leftValue) :: rest, rightMap =>
    (match List.lookup k rightMap with
     | none => [newDiff (some (wrapMappingValueNode leftValue)) none]
     | some rightValue => cmp (some leftValue) (some rightValue))
      ++ compareMappingKeys cmp rest rightMap

/-- `compareMappingNodes` (compare.go 217-247): compare the two key
maps; left-only keys yield deleted diffs, right-only keys added diffs,
shared keys recurse.  The final `allDiffs` concatenation follows the Go
map's (arbitrary) iteration order; the embedding linearizes it as all
left-key diffs in map order followed by the right-only diffs. -/
def compareMappingNodes (cmp : Option Node → Option Node → List Diff)
    (leftValues rightValues : List (String × Node)) : List Diff :=
  let leftKeyValueMap := mappingValueNodesIntoMap leftValues
  let rightKeyValueMap := mappingValueNodesIntoMap rightValues
  compareMappingKeys cmp leftKeyValueMap rightKeyValueMap
    ++ (rightKeyValueMap.filter
          (fun kv => (List.lookup kv.1 leftKeyValueMap).isNone)).map
        (fun kv => newDiff none (some (wrapMappingValueNode kv.2)))

/-- The tail of the index loop of `compareSequenceNodes` once the left
side is exhausted: each remaining right value is compared against nil. -/
def positionalSeqTail (cmp : Option Node → Option Node → List Diff) :
    List Node → List Diff
  | [] => []
  | rightValue :: rs => cmp none (some rightValue) ++ positionalSeqTail cmp rs

/-- The index loop of `compareSequenceNodes` (compare.go 269-280): for
each index up to the longer length, compare `Values[i]` (nil when out
of range) of the two sides and append the results. -/
def positionalSeqDiffs (cmp : Option Node → Option Node → List Diff) :
    List Node → List Node → List Diff
  | [], rs => positionalSeqTail cmp rs
  | leftValue :: ls, [] => cmp (some leftValue) none ++ positionalSeqDiffs cmp ls []
  | leftValue :: ls, rightValue :: rs =>
    cmp (some leftValue) (some rightValue) ++ positionalSeqDiffs cmp ls rs

/-- The inner scan of `ignoreIndexes` (compare.go 301-310): the first
index `ir` (from the given counter) whose right-side node is still
present and compares equal to `leftNode` (`len(compareNodes(...)) == 0`). -/
def findCancelIdx (cmp : Option Node → Option Node → List Diff) (leftNode : Node) :
    List (Option Node) → Nat → Option Nat
  | [], _ => none
  | none :: rest, ir => findCancelIdx cmp leftNode rest (ir + 1)
  | some rightNode :: rest, ir =>
    if (cmp (some leftNode) (some rightNode)).length = 0 then some ir
    else findCancelIdx cmp leftNode rest (ir + 1)

/-- The outer loop of `ignoreIndexes` (compare.go 297-311): walk the
left-side nodes in order; each still-present left node cancels itself
and the first matching still-present right node (both set to nil). -/
def cancelPairs (cmp : Option Node → Option Node → List Diff) :
    List (Option Node) → List (Option Node) → List (Option Node) × List (Option Node)
  | [], rightNodes => ([], rightNodes)
  | none :: rest, rightNodes =>
    let (ls, rs) := cancelPairs cmp rest rightNodes
    (none :: ls, rs)
  | some leftNode :: rest, rightNodes =>
    match findCancelIdx cmp leftNode rightNodes 0 with
    | none =>
      let (ls, rs) := cancelPairs cmp rest rightNodes
      (some leftNode :: ls, rs)
    | some ir =>
      let (ls, rs) := cancelPairs cmp rest (rightNodes.set ir none)
      (none :: ls, rs)

/-- `ignoreIndexes` (compare.go 289-324): cancel matching left/right
nodes, then rebuild the diff list index by index, skipping entries
whose two sides were both cancelled (or were already nil). -/
def ignoreIndexes (cmp : Option Node → Option Node → List Diff)
    (diffs : List Diff) : List Diff :=
  let (leftNodes, rightNodes) :=
    cancelPairs cmp (diffs.map (·.leftNode)) (diffs.map (·.rightNode))
  (List.range diffs.length).filterMap fun i =>
    let leftNode := leftNodes.getD i none
    let rightNode := rightNodes.getD i none
    if leftNode.isNone && rightNode.isNone then none
    else some (newDiff leftNode rightNode)

/-- `compareSequenceNodes` (compare.go 268-287): the positional diff
list, post-processed by `ignoreIndexes` when `ignoreSeqOrder` is set. -/
def compareSequenceNodes (cmp : Option Node → Option Node → List Diff)
    (leftValues rightValues : List Node) (options : compareOptions) : List Diff :=
  let diffs := positionalSeqDiffs cmp leftValues rightValues
  if options.ignoreSeqOrder then ignoreIndexes cmp diffs else diffs

/-- `compareNodes` (compare.go 146-206), with explicit fuel so that the
recursion through `ignoreIndexes` (which re-compares nodes taken out of
already-computed diffs) is structural.  One fuel unit is spent per tree
level, so any fuel at least the height of the inputs — in particular the
size-based fuel of the `compareNodes` wrapper below — is enough for the
fuel never to run out on reachable calls (`compareNodesF_stable` below
makes this precise). -/
def compareNodesF : Nat → Option Node → Option Node → compareOptions → List Diff
  | 0, _, _, _ => []
  | fuel + 1, ln, rn, options =>
    match ln, rn with
    | none, none => []
    | none, some r => [newDiff none (some r)]
    | some l, none => [newDiff (some l) none]
    | some l, some r =>
      if comparableNodes l r = false then [newDiff (some l) (some r)]
      else
        match l.typeOf with
        | .mappingType =>
          compareMappingNodes (fun a b => compareNodesF fuel a b options)
            l.mappingValues r.mappingValues
        | .sequenceType =>
          compareSequenceNodes (fun a b => compareNodesF fuel a b options)
            l.sequenceValues r.sequenceValues options
        | .stringType | .literalType =>
          if stringNodeValue l ≠ stringNodeValue r then [newDiff (some l) (some r)] else []
        | .integerType =>
          if l.integerValue ≠ r.integerValue then [newDiff (some l) (some r)] else []
        | .floatType =>
          if l.floatValue ≠ r.floatValue then [newDiff (some l) (some r)] else []
        | .boolType =>
          if l.boolValue ≠ r.boolValue then [newDiff (some l) (some r)] else []
        | .infinityType =>
          if l.infinityValue ≠ r.infinityValue then [newDiff (some l) (some r)] else []
        | .nullType | .nanType => []
        | .otherType _ => []
termination_by structural fuel => fuel

/-- `compareNodes` (compare.go 146-206): the fueled comparator run with
fuel that provably exceeds the height of both inputs. -/
def compareNodes (ln rn : Option Node) (options : compareOptions) : List Diff :=
  compareNodesF (Node.optionSize ln + Node.optionSize rn + 1) ln rn options

/-- `DocDiffs` (types.go 66): the differences of one YAML document. -/
abbrev DocDiffs := List Diff

/-- `FileDiffs` (types.go 114): one `DocDiffs` per document slot. -/
abbrev FileDiffs := List DocDiffs

/-- The node `DocDiffs.Less` reads the line from (types.go 83-91): the
left node when present, otherwise the right node. -/
def presentNode (d : Diff) : Option Node :=
  match d.leftNode with
  | some n => some n
  | none => d.rightNode

/-- `GetToken().Position.Line` of an optional node.  In the Go code a
diff with both sides nil would panic here; such a diff is never
produced (claim C8), so the `none` value is arbitrary. -/
def lineOf : Option Node → Nat
  | some n => n.line
  | none => 0

/-- `DocDiffs.Less` (types.go 79-105): sort primarily by the present
node's line (ascending); on equal lines compare the `DiffType` enum
values with `>`. -/
def DocDiffs.Less (diffA diffB : Diff) : Bool :=
  let nodeA := presentNode diffA
  let nodeB := presentNode diffB
  if lineOf nodeA ≠ lineOf nodeB then decide (lineOf nodeA < lineOf nodeB)
  else decide (diffA.diffType.toNat > diffB.diffType.toNat)

/-- The non-strict order `sort.Sort` establishes: `a` may precede `b`
exactly when `Less b a` does not hold. -/
def sortLe (a b : Diff) : Prop := ¬ DocDiffs.Less b a = true

instance : DecidableRel sortLe := fun _ _ => instDecidableNot

/-- `sort.Sort docDiff` (compare.go 136): some permutation of the list
that is sorted for `DocDiffs.Less`.  The sort the Go library applies is
unstable, so only the sortedness and the multiset are determined; the
embedding fixes insertion sort as one admissible outcome. -/
def sortDiffs (d : DocDiffs) : DocDiffs := List.insertionSort sortLe d

/-- `ast.File`: the parsed document stream; each document contributes
its root `Body`, which is nil (`none`) for an empty document. -/
structure File where
  Docs : List (Option Node)

/-- The option-application loop of `CompareAst` (compare.go 121-124). -/
def applyOptions (opts : List CompareOption) : compareOptions :=
  opts.foldl (fun o f => f o) {}

/-- `CompareAst` (compare.go 120-140): one sorted `DocDiffs` per
document index up to the larger document count, comparing the two root
bodies with the out-of-range side nil. -/
def CompareAst (left right : File) (opts : List CompareOption) : FileDiffs :=
  let options := applyOptions opts
  (List.range (max left.Docs.length right.Docs.length)).map fun i =>
    sortDiffs (compareNodes (left.Docs.getD i none) (right.Docs.getD i none) options)

/-- `Compare` (compare.go 89-101).  The external parser
(`parser.ParseBytes`, an external collaborator per spec section 6) is
represented by its outcome for each input: either a parsed `File` or a
parse error.  The error type is abstract, so the function can only pass
a parser error through unmodified. -/
def Compare {ε : Type} (leftParsed rightParsed : Except ε File)
    (opts : List CompareOption) : Except ε FileDiffs :=
  match leftParsed with
  | .error err => .error err
  | .ok leftAst =>
    match rightParsed with
    | .error err => .error err
    | .ok rightAst => .ok (CompareAst leftAst rightAst opts)

/-- `CompareFile` (compare.go 105-117): identical to `Compare` except
that the parse outcomes come from `parser.ParseFile`. -/
def CompareFile {ε : Type} (leftParsed rightParsed : Except ε File)
    (opts : List CompareOption) : Except ε FileDiffs :=
  match leftParsed with
  | .error err => .error err
  | .ok leftAst =>
    match rightParsed with
    | .error err => .error err
    | .ok rightAst => .ok (CompareAst leftAst rightAst opts)

/-- `FileDiffs.HasDiff` (types.go 117-124): scan the documents and
report whether any holds at least one difference. -/
def FileDiffs.HasDiff : FileDiffs → Bool
  | [] => false
  | docDiffs :: rest =>
    if docDiffs.length > 0 then true else FileDiffs.HasDiff rest

/-!
Properties of the difference ordering.  `DocDiffs.Less` compares first
by line, then by the raw `DiffType` enum value with `>`; the whole
comparison is captured by one natural-number key.
-/

/-- Enum values of `DiffType` are at most 2. -/
theorem DiffType.toNat_le_two (t : DiffType) : t.toNat ≤ 2 := by
  cases t <;> simp [DiffType.toNat]

/-- The single sort key realizing `DocDiffs.Less`: line major, reversed
enum value minor (so that a larger enum value sorts earlier). -/
def sortKey (d : Diff) : Nat :=
  3 * lineOf (presentNode d) + (2 - d.diffType.toNat)

/-- `DocDiffs.Less` holds exactly when the sort key strictly drops. -/
theorem Less_iff_sortKey (a b : Diff) :
    DocDiffs.Less a b = true ↔ sortKey a < sortKey b := by
  have ha := DiffType.toNat_le_two a.diffType
  have hb := DiffType.toNat_le_two b.diffType
  simp only [DocDiffs.Less, sortKey]
  by_cases h : lineOf (presentNode a) = lineOf (presentNode b)
  · simp only [h, ne_eq, not_true_eq_false, if_false, decide_eq_true_eq]
    omega
  · simp only [h, ne_eq, not_false_eq_true, if_true, decide_eq_true_eq]
    omega

/-- The non-strict order used by the sort, through the key. -/
theorem sortLe_iff_sortKey (a b : Diff) :
    sortLe a b ↔ sortKey a ≤ sortKey b := by
  unfold sortLe
  rw [Less_iff_sortKey]
  omega

instance : IsTotal Diff sortLe :=
  ⟨fun a b => by rw [sortLe_iff_sortKey, sortLe_iff_sortKey]; omega⟩

instance : IsTrans Diff sortLe :=
  ⟨fun a b c => by
    rw [sortLe_iff_sortKey, sortLe_iff_sortKey, sortLe_iff_sortKey]
    omega⟩

/-- The sorting pass returns a permutation of its input. -/
theorem sortDiffs_perm (d : DocDiffs) : List.Perm (sortDiffs d) d :=
  List.perm_insertionSort sortLe d

/-- The sorting pass returns a list sorted for the comparator. -/
theorem sortDiffs_sorted (d : DocDiffs) : List.Pairwise sortLe (sortDiffs d) :=
  List.sorted_insertionSort sortLe d

/-- The outputs the ordering stage can produce from one fixed pre-sort
difference list `ds`: the pre-sort order of `ds` is arbitrary (Go map
iteration) and `sort.Sort` is unstable, so any sorted permutation of
`ds` is reachable.  This captures the ordering stage only — with
`IgnoreSeqOrder` enabled the engine can also produce different
pre-sort lists, differing even as multisets, across runs, because the
greedy cancellation consumes the positional diffs in map-iteration
order; that second source of nondeterminism is demonstrated concretely
in the cancellation conjuncts of the C4 theorem below. -/
def validSortedOutput (ds out : List Diff) : Prop :=
  List.Perm ds out ∧ List.Pairwise sortLe out

/-- Sorted permutations of a list with pairwise distinct sort keys are
unique. -/
theorem sorted_perm_unique (l₁ l₂ : List Diff) (hp : List.Perm l₁ l₂)
    (hs₁ : List.Pairwise sortLe l₁) (hs₂ : List.Pairwise sortLe l₂)
    (hk : List.Pairwise (fun a b => sortKey a ≠ sortKey b) l₁) : l₁ = l₂ := by
  induction l₁ generalizing l₂ with
  | nil => exact (List.Perm.eq_nil hp.symm).symm
  | cons a t ih =>
    cases l₂ with
    | nil => exact absurd (List.Perm.eq_nil hp) (by simp)
    | cons b t₂ =>
      by_cases hab : a = b
      · subst hab
        have ht := hp.cons_inv
        rw [ih t₂ ht hs₁.of_cons hs₂.of_cons hk.of_cons]
      · exfalso
        have hbmem : b ∈ a :: t := hp.mem_iff.mpr (List.mem_cons_self b t₂)
        have hamem : a ∈ b :: t₂ := hp.mem_iff.mp (List.mem_cons_self a t)
        have hb_t : b ∈ t := by
          rcases List.mem_cons.mp hbmem with h | h
          · exact absurd h.symm hab
          · exact h
        have ha_t₂ : a ∈ t₂ := by
          rcases List.mem_cons.mp hamem with h | h
          · exact absurd h hab
          · exact h
        have h₁ : sortLe a b := (List.pairwise_cons.mp hs₁).1 b hb_t
        have h₂ : sortLe b a := (List.pairwise_cons.mp hs₂).1 a ha_t₂
        have hne : sortKey a ≠ sortKey b := (List.pairwise_cons.mp hk).1 b hb_t
        rw [sortLe_iff_sortKey] at h₁ h₂
        omega

/-!
Self-comparison: supporting lemmas about the key map, sizes and the
per-structure loops, then the main fuel induction.
-/

/-- Every node is comparable with itself. -/
theorem comparableNodes_self (n : Node) : comparableNodes n n = true := by
  cases n <;> simp [comparableNodes, Node.typeOf]

/-- A node's size is positive. -/
theorem Node.size_pos (n : Node) : 1 ≤ n.size := by
  cases n <;> simp [Node.size]

/-- A member pair's value is smaller than the entry list. -/
theorem Node.size_lt_of_mem_entries {kv : String × Node} {vs : List (String × Node)}
    (h : kv ∈ vs) : Node.size kv.2 < Node.entriesSize vs := by
  induction vs with
  | nil => cases h
  | cons hd tl ih =>
    rcases List.mem_cons.mp h with h | h
    · subst h
      obtain ⟨k, v⟩ := kv
      simp [Node.entriesSize]
      omega
    · have := ih h
      obtain ⟨k, v⟩ := hd
      simp [Node.entriesSize]
      omega

/-- A member value is smaller than the value list. -/
theorem Node.size_lt_of_mem_list {v : Node} {vs : List Node} (h : v ∈ vs) :
    Node.size v < Node.listSize vs := by
  induction vs with
  | nil => cases h
  | cons hd tl ih =>
    rcases List.mem_cons.mp h with h | h
    · subst h
      simp [Node.listSize]
      omega
    · have := ih h
      simp [Node.listSize]
      omega

/-- A member key always looks up to something. -/
theorem lookup_isSome_of_mem {kv : String × Node} {l : List (String × Node)}
    (h : kv ∈ l) : (List.lookup kv.1 l).isSome = true := by
  induction l with
  | nil => cases h
  | cons hd tl ih =>
    rcases List.mem_cons.mp h with h | h
    · subst h
      simp [List.lookup]
    · by_cases he : kv.1 == hd.1
      · simp [List.lookup, he]
      · simp only [List.lookup, he]
        exact ih h

/-- Members of the deduplicated key map come from the original list. -/
theorem mem_of_mem_mappingValueNodesIntoMap {kv : String × Node}
    {l : List (String × Node)} (h : kv ∈ mappingValueNodesIntoMap l) : kv ∈ l := by
  induction l with
  | nil => cases h
  | cons hd tl ih =>
    obtain ⟨k, v⟩ := hd
    by_cases hl : (List.lookup k tl).isSome
    · simp only [mappingValueNodesIntoMap, hl, if_true] at h
      exact List.mem_cons_of_mem _ (ih h)
    · simp only [mappingValueNodesIntoMap, hl, if_false] at h
      rcases List.mem_cons.mp h with h | h
      · exact h ▸ List.mem_cons_self _ _
      · exact List.mem_cons_of_mem _ (ih h)

/-- In the deduplicated key map, a member pair's key looks up to that
very pair's value (keys are unique after deduplication). -/
theorem lookup_mappingValueNodesIntoMap_of_mem {kv : String × Node}
    {l : List (String × Node)} (h : kv ∈ mappingValueNodesIntoMap l) :
    List.lookup kv.1 (mappingValueNodesIntoMap l) = some kv.2 := by
  induction l with
  | nil => cases h
  | cons hd tl ih =>
    obtain ⟨k, v⟩ := hd
    by_cases hl : (List.lookup k tl).isSome
    · simp only [mappingValueNodesIntoMap, hl, if_true] at h ⊢
      exact ih h
    · simp only [mappingValueNodesIntoMap, hl, if_false] at h ⊢
      rcases List.mem_cons.mp h with h | h
      · subst h
        simp [List.lookup]
      · have hne : (kv.1 == k) = false := by
          by_contra hc
          rw [Bool.not_eq_false] at hc
          have hkv1 : kv.1 = k := eq_of_beq hc
          have hmem := mem_of_mem_mappingValueNodesIntoMap h
          have hs := lookup_isSome_of_mem hmem
          rw [hkv1] at hs
          exact hl hs
        simp only [List.lookup, hne]
        exact ih h

/-- The left-keys loop yields nothing when every key finds an equal
value on the right. -/
theorem compareMappingKeys_eq_nil (cmp : Option Node → Option Node → List Diff)
    (lm rm : List (String × Node))
    (h : ∀ kv ∈ lm, ∃ rv, List.lookup kv.1 rm = some rv ∧ cmp (some kv.2) (some rv) = []) :
    compareMappingKeys cmp lm rm = [] := by
  induction lm with
  | nil => rfl
  | cons hd tl ih =>
    obtain ⟨k, v⟩ := hd
    obtain ⟨rv, hl, hc⟩ := h (k, v) (List.mem_cons_self _ _)
    simp only [compareMappingKeys, hl, hc, List.nil_append]
    exact ih fun kv hkv => h kv (List.mem_cons_of_mem _ hkv)

/-- The positional loop yields nothing when a list is compared with
itself element by element and every element equals itself. -/
theorem positionalSeqDiffs_self_eq_nil (cmp : Option Node → Option Node → List Diff)
    (vs : List Node) (h : ∀ v ∈ vs, cmp (some v) (some v) = []) :
    positionalSeqDiffs cmp vs vs = [] := by
  induction vs with
  | nil => rfl
  | cons hd tl ih =>
    simp only [positionalSeqDiffs, h hd (List.mem_cons_self _ _), List.nil_append]
    exact ih fun v hv => h v (List.mem_cons_of_mem _ hv)

/-- Cancellation of the empty diff list is empty. -/
theorem ignoreIndexes_nil (cmp : Option Node → Option Node → List Diff) :
    ignoreIndexes cmp [] = [] := rfl

/-- Fueled self-comparison is empty, for any fuel at least the node's
size. -/
theorem compareNodesF_self (fuel : Nat) :
    ∀ (n : Node) (o : compareOptions), Node.size n ≤ fuel →
      compareNodesF fuel (some n) (some n) o = [] := by
  induction fuel with
  | zero =>
    intro n o h
    have := Node.size_pos n
    omega
  | succ f ih =>
    intro n o h
    cases n with
    | mapping line path vs =>
      simp only [compareNodesF, comparableNodes_self, Node.typeOf, Node.mappingValues,
        Bool.true_eq_false, if_false]
      unfold compareMappingNodes
      have hkeys : compareMappingKeys (fun a b => compareNodesF f a b o)
          (mappingValueNodesIntoMap vs) (mappingValueNodesIntoMap vs) = [] := by
        apply compareMappingKeys_eq_nil
        intro kv hkv
        refine ⟨kv.2, lookup_mappingValueNodesIntoMap_of_mem hkv, ?_⟩
        apply ih
        have h1 := Node.size_lt_of_mem_entries (mem_of_mem_mappingValueNodesIntoMap hkv)
        simp only [Node.size] at h
        omega
      have hfilter : (mappingValueNodesIntoMap vs).filter
          (fun kv => (List.lookup kv.1 (mappingValueNodesIntoMap vs)).isNone) = [] := by
        rw [List.filter_eq_nil_iff]
        intro kv hkv
        have := lookup_mappingValueNodesIntoMap_of_mem hkv
        simp [this]
      simp only [hkeys, hfilter, List.map_nil, List.nil_append]
    | sequence line path vs =>
      simp only [compareNodesF, comparableNodes_self, Node.typeOf, Node.sequenceValues,
        Bool.true_eq_false, if_false]
      unfold compareSequenceNodes
      have hpos : positionalSeqDiffs (fun a b => compareNodesF f a b o) vs vs = [] := by
        apply positionalSeqDiffs_self_eq_nil
        intro v hv
        apply ih
        have h1 := Node.size_lt_of_mem_list hv
        simp only [Node.size] at h
        omega
      simp only [hpos]
      cases o.ignoreSeqOrder <;> simp [ignoreIndexes_nil]
    | string line path v =>
      simp [compareNodesF, comparableNodes_self, Node.typeOf, stringNodeValue]
    | literal line path v =>
      simp [compareNodesF, comparableNodes_self, Node.typeOf, stringNodeValue]
    | integer line path v =>
      simp [compareNodesF, comparableNodes_self, Node.typeOf, Node.integerValue]
    | float line path v =>
      simp [compareNodesF, comparableNodes_self, Node.typeOf, Node.floatValue]
    | bool line path v =>
      simp [compareNodesF, comparableNodes_self, Node.typeOf, Node.boolValue]
    | infinity line path v =>
      simp [compareNodesF, comparableNodes_self, Node.typeOf, Node.infinityValue]
    | null line path =>
      simp [compareNodesF, comparableNodes_self, Node.typeOf]
    | nan line path =>
      simp [compareNodesF, comparableNodes_self, Node.typeOf]
    | other line path k c =>
      simp [compareNodesF, comparableNodes_self, Node.typeOf]

/-!
Claim theorems.
-/

/-- C7: comparing any node against itself — of any kind, under any
option setting — yields the empty difference list. -/
theorem c7_compare_self_empty (n : Node) (o : compareOptions) :
    compareNodes (some n) (some n) o = [] := by
  apply compareNodesF_self
  simp [Node.optionSize]
  omega

/-- C6: comparing an absent node against a present node `n` yields
exactly one Added difference holding `n` itself (so the comparator did
not recurse into `n`'s subtree), the mirrored call yields exactly one
Deleted difference, and both differences report `n`'s own root path. -/
theorem c6_presence_mirror (n : Node) (o : compareOptions) :
    compareNodes none (some n) o = [newDiff none (some n)]
    ∧ compareNodes (some n) none o = [newDiff (some n) none]
    ∧ (newDiff none (some n)).diffType = DiffType.Added
    ∧ (newDiff (some n) none).diffType = DiffType.Deleted
    ∧ (newDiff none (some n)).path = getNodePath (some n)
    ∧ (newDiff (some n) none).path = getNodePath (some n) :=
  ⟨rfl, rfl, rfl, rfl, rfl, rfl⟩

/-- Unhandled same-typed nodes compare as equal at any positive fuel. -/
theorem compareNodesF_other_eq_nil (f : Nat) (o : compareOptions)
    (l₁ : Nat) (p₁ : String) (c₁ : Nat) (l₂ : Nat) (p₂ : String) (c₂ : Nat)
    (k : OtherKind) :
    compareNodesF (f + 1) (some (Node.other l₁ p₁ k c₁))
      (some (Node.other l₂ p₂ k c₂)) o = [] := by
  simp [compareNodesF, comparableNodes, Node.typeOf]

/-- C10: two nodes of the same AST node type that is none of the
explicitly handled kinds (here: alias, anchor, tag, merge key) compare
as equal — the empty list — regardless of their content. -/
theorem c10_unhandled_kinds_ignored (o : compareOptions)
    (l₁ : Nat) (p₁ : String) (c₁ : Nat) (l₂ : Nat) (p₂ : String) (c₂ : Nat)
    (k : OtherKind) :
    compareNodes (some (Node.other l₁ p₁ k c₁)) (some (Node.other l₂ p₂ k c₂)) o = [] :=
  compareNodesF_other_eq_nil 4 o l₁ p₁ c₁ l₂ p₂ c₂ k

/-- C9: if the parser fails on either input, both the bytes entry point
and the file-path entry point return exactly the parser's error (whose
type is abstract, so it cannot be modified) and no difference list;
the comparator is only reached when both parses succeed. -/
theorem c9_parse_error_short_circuits :
    (∀ (ε : Type) (e : ε) (rightParsed : Except ε File) (opts : List CompareOption),
        Compare (.error e) rightParsed opts = .error e)
    ∧ (∀ (ε : Type) (leftFile : File) (e : ε) (opts : List CompareOption),
        Compare (.ok leftFile) (.error e) opts = .error e)
    ∧ (∀ (ε : Type) (e : ε) (rightParsed : Except ε File) (opts : List CompareOption),
        CompareFile (.error e) rightParsed opts = .error e)
    ∧ (∀ (ε : Type) (leftFile : File) (e : ε) (opts : List CompareOption),
        CompareFile (.ok leftFile) (.error e) opts = .error e) :=
  ⟨fun _ _ _ _ => rfl, fun _ _ _ _ => rfl, fun _ _ _ _ => rfl, fun _ _ _ _ => rfl⟩

/-- C3: `FileDiffs.HasDiff` is true exactly when at least one of the
document difference lists is non-empty.  The embedding is a pure
function, so the call cannot mutate its receiver. -/
theorem c3_hasDiff_iff (f : FileDiffs) :
    FileDiffs.HasDiff f = true ↔ ∃ d ∈ f, d ≠ [] := by
  induction f with
  | nil => simp [FileDiffs.HasDiff]
  | cons hd tl ih =>
    by_cases h : hd.length > 0
    · simp only [FileDiffs.HasDiff, h, if_true, true_iff]
      exact ⟨hd, List.mem_cons_self _ _, List.ne_nil_of_length_pos h⟩
    · have hz : hd = [] := List.length_eq_zero.mp (by omega)
      subst hz
      simp [FileDiffs.HasDiff, ih]

/-- The per-diff presence predicate of claim C8: at least one side of
the difference is a present node. -/
def hasPresentSide (d : Diff) : Bool :=
  d.leftNode.isSome || d.rightNode.isSome

/-- Every difference rebuilt by `ignoreIndexes` passes the explicit
both-nil filter, so it has a present side — independently of the input
diff list and of the comparator used for cancellation. -/
theorem ignoreIndexes_all_present (cmp : Option Node → Option Node → List Diff)
    (diffs : List Diff) :
    (ignoreIndexes cmp diffs).all hasPresentSide = true := by
  rw [List.all_eq_true]
  intro d hd
  unfold ignoreIndexes at hd
  rcases hp : cancelPairs cmp (diffs.map (·.leftNode)) (diffs.map (·.rightNode)) with ⟨ls, rs⟩
  rw [hp] at hd
  obtain ⟨i, _, hf⟩ := List.mem_filterMap.mp hd
  simp only at hf
  split at hf
  · cases hf
  · rename_i hcond
    rw [Option.some.injEq] at hf
    subst hf
    simp only [hasPresentSide, newDiff]
    cases hl : ls.getD i none with
    | some n => simp
    | none =>
      cases hr : rs.getD i none with
      | some n => simp
      | none =>
        rw [hl, hr] at hcond
        simp at hcond

/-- The left-keys loop only emits diffs with a present side, provided
the comparator it recurses into does. -/
theorem compareMappingKeys_all_present (cmp : Option Node → Option Node → List Diff)
    (hcmp : ∀ a b, (cmp a b).all hasPresentSide = true)
    (lm rm : List (String × Node)) :
    (compareMappingKeys cmp lm rm).all hasPresentSide = true := by
  induction lm with
  | nil => rfl
  | cons hd tl ih =>
    obtain ⟨k, v⟩ := hd
    simp only [compareMappingKeys, List.all_append, Bool.and_eq_true]
    refine ⟨?_, ih⟩
    cases hlk : List.lookup k rm with
    | none => rfl
    | some rv => exact hcmp (some v) (some rv)

/-- The positional tail only emits diffs with a present side. -/
theorem positionalSeqTail_all_present (cmp : Option Node → Option Node → List Diff)
    (hcmp : ∀ a b, (cmp a b).all hasPresentSide = true) (rs : List Node) :
    (positionalSeqTail cmp rs).all hasPresentSide = true := by
  induction rs with
  | nil => rfl
  | cons hd tl ih =>
    simp only [positionalSeqTail, List.all_append, Bool.and_eq_true]
    exact ⟨hcmp none (some hd), ih⟩

/-- The positional loop only emits diffs with a present side. -/
theorem positionalSeqDiffs_all_present (cmp : Option Node → Option Node → List Diff)
    (hcmp : ∀ a b, (cmp a b).all hasPresentSide = true) :
    ∀ ls rs : List Node, (positionalSeqDiffs cmp ls rs).all hasPresentSide = true := by
  intro ls
  induction ls with
  | nil => exact fun rs => positionalSeqTail_all_present cmp hcmp rs
  | cons hd tl ih =>
    intro rs
    cases rs with
    | nil =>
      simp only [positionalSeqDiffs, List.all_append, Bool.and_eq_true]
      exact ⟨hcmp (some hd) none, ih []⟩
    | cons rhd rtl =>
      simp only [positionalSeqDiffs, List.all_append, Bool.and_eq_true]
      exact ⟨hcmp (some hd) (some rhd), ih rtl⟩

/-- At every fuel, every difference the comparator emits has a present
side. -/
theorem compareNodesF_all_present (fuel : Nat) :
    ∀ (ln rn : Option Node) (o : compareOptions),
      (compareNodesF fuel ln rn o).all hasPresentSide = true := by
  induction fuel with
  | zero => intro ln rn o; rfl
  | succ f ih =>
    intro ln rn o
    have hcmp : ∀ a b, (compareNodesF f a b o).all hasPresentSide = true :=
      fun a b => ih a b o
    match ln, rn with
    | none, none => rfl
    | none, some r => rfl
    | some l, none => rfl
    | some l, some r =>
      show (compareNodesF (f + 1) (some l) (some r) o).all hasPresentSide = true
      rw [compareNodesF]
      by_cases hc : comparableNodes l r = false
      · simp [hc, hasPresentSide, newDiff]
      · rw [if_neg hc]
        cases htype : l.typeOf with
        | mappingType =>
          unfold compareMappingNodes
          simp only [List.all_append, Bool.and_eq_true]
          refine ⟨compareMappingKeys_all_present _ hcmp _ _, ?_⟩
          rw [List.all_eq_true]
          intro d hd
          obtain ⟨kv, _, hkv⟩ := List.mem_map.mp hd
          subst hkv
          rfl
        | sequenceType =>
          unfold compareSequenceNodes
          cases hi : o.ignoreSeqOrder
          · simp only [hi, Bool.false_eq_true, if_false]
            exact positionalSeqDiffs_all_present _ hcmp _ _
          · simp only [hi, if_true]
            exact ignoreIndexes_all_present _ _
        | stringType =>
          by_cases hv : stringNodeValue l ≠ stringNodeValue r <;>
            simp [hv, hasPresentSide, newDiff]
        | literalType =>
          by_cases hv : stringNodeValue l ≠ stringNodeValue r <;>
            simp [hv, hasPresentSide, newDiff]
        | integerType =>
          by_cases hv : l.integerValue ≠ r.integerValue <;>
            simp [hv, hasPresentSide, newDiff]
        | floatType =>
          by_cases hv : l.floatValue ≠ r.floatValue <;>
            simp [hv, hasPresentSide, newDiff]
        | boolType =>
          by_cases hv : l.boolValue ≠ r.boolValue <;>
            simp [hv, hasPresentSide, newDiff]
        | infinityType =>
          by_cases hv : l.infinityValue ≠ r.infinityValue <;>
            simp [hv, hasPresentSide, newDiff]
        | nullType => rfl
        | nanType => rfl
        | otherType k => rfl

/-- C8: the engine never produces a difference with both sides absent.
Comparing two absent nodes returns the empty list, every difference any
fueled comparator run emits has a present side, and the cancellation
step of the order-insensitive mode filters both-absent pairs out
whatever its input. -/
theorem c8_no_both_absent_diff :
    (∀ o : compareOptions, compareNodes none none o = [])
    ∧ (∀ (fuel : Nat) (ln rn : Option Node) (o : compareOptions),
        (compareNodesF fuel ln rn o).all hasPresentSide = true)
    ∧ (∀ (cmp : Option Node → Option Node → List Diff) (diffs : List Diff),
        (ignoreIndexes cmp diffs).all hasPresentSide = true) :=
  ⟨fun _ => rfl,
   fun fuel ln rn o => compareNodesF_all_present fuel ln rn o,
   fun cmp diffs => ignoreIndexes_all_present cmp diffs⟩

/-- The length part of claim C2. -/
theorem CompareAst_length (left right : File) (opts : List CompareOption) :
    (CompareAst left right opts).length = max left.Docs.length right.Docs.length := by
  simp [CompareAst]

/-- The per-index part of claim C2: each slot is the sorted comparison
of the two root bodies at that index, the out-of-range side nil. -/
theorem CompareAst_getElem? (left right : File) (opts : List CompareOption) (i : Nat) :
    (CompareAst left right opts)[i]? =
      if i < max left.Docs.length right.Docs.length then
        some (sortDiffs (compareNodes (left.Docs.getD i none) (right.Docs.getD i none)
          (applyOptions opts)))
      else none := by
  unfold CompareAst
  rw [List.getElem?_map]
  by_cases h : i < max left.Docs.length right.Docs.length
  · rw [if_pos h, List.getElem?_range h]
    rfl
  · rw [if_neg h, List.getElem?_eq_none]
    · rfl
    · simp
      omega

/-- Left stream of the C2 example: three documents. -/
def c2Left : File :=
  ⟨[some (.string 1 "$" "alpha"), some (.string 1 "$" "beta"), some (.string 1 "$" "gamma")]⟩

/-- Right stream of the C2 example: two documents, the first equal to
the left one, the second different. -/
def c2Right : File :=
  ⟨[some (.string 1 "$" "alpha"), some (.string 1 "$" "delta")]⟩

/-- C2: the comparison yields `max(leftDocCount, rightDocCount)`
document difference lists, each the sorted comparator run on the two
root bodies at that index with the out-of-range side absent; the
3-document versus 2-document example yields exactly three lists, the
first two computed normally and the third holding exactly one Deleted
root-level difference. -/
theorem c2_document_alignment :
    (∀ (left right : File) (opts : List CompareOption),
        (CompareAst left right opts).length = max left.Docs.length right.Docs.length
        ∧ ∀ i : Nat,
            (CompareAst left right opts)[i]? =
              if i < max left.Docs.length right.Docs.length then
                some (sortDiffs (compareNodes (left.Docs.getD i none)
                  (right.Docs.getD i none) (applyOptions opts)))
              else none)
    ∧ CompareAst c2Left c2Right [] =
        [[],
         [newDiff (some (.string 1 "$" "beta")) (some (.string 1 "$" "delta"))],
         [newDiff (some (.string 1 "$" "gamma")) none]]
    ∧ (newDiff (some (Node.string 1 "$" "gamma")) none).diffType = DiffType.Deleted
    ∧ (newDiff (some (Node.string 1 "$" "gamma")) none).path = "" :=
  ⟨fun left right opts =>
    ⟨CompareAst_length left right opts, fun i => CompareAst_getElem? left right opts i⟩,
   rfl, rfl, rfl⟩

/-- Left input of the C1 evidence: one document, a one-line flow
mapping with keys `a` and `b`. -/
def c1Left : File :=
  ⟨[some (.mapping 1 "$" [("a", .integer 1 "$.a" 1), ("b", .integer 1 "$.b" 2)])]⟩

/-- Right input of the C1 evidence: the key `a` is gone and `b`'s value
changed, all still on line 1. -/
def c1Right : File :=
  ⟨[some (.mapping 1 "$" [("b", .integer 1 "$.b" 3)])]⟩

/-- The modification of key `b` (line 1). -/
def c1ModDiff : Diff := newDiff (some (.integer 1 "$.b" 2)) (some (.integer 1 "$.b" 3))

/-- The deletion of key `a` (line 1). -/
def c1DelDiff : Diff := newDiff (some (.integer 1 "$.a" 1)) none

/-- C1 evidence: on a shared source line the sorted output places the
Modified difference before the Deleted one — `DocDiffs.Less` compares
the raw enum values with `>` (Added 0, Deleted 1, Modified 2), which
orders Modified, Deleted, Added — while the claim (and the comment
inside `DocDiffs.Less` itself) put Deleted before Modified. -/
theorem c1_same_line_sort_puts_modified_first :
    CompareAst c1Left c1Right [] = [[c1ModDiff, c1DelDiff]]
    ∧ c1ModDiff.diffType = DiffType.Modified
    ∧ c1DelDiff.diffType = DiffType.Deleted
    ∧ lineOf (presentNode c1ModDiff) = lineOf (presentNode c1DelDiff)
    ∧ DocDiffs.Less c1ModDiff c1DelDiff = true
    ∧ DocDiffs.Less c1DelDiff c1ModDiff = false :=
  ⟨rfl, rfl, rfl, rfl, rfl, rfl⟩

/-- The sequence `[1, 2, 3, 4, 5]`, one element per line. -/
def c5SeqLeft : Node :=
  .sequence 1 "$" [.integer 1 "$[0]" 1, .integer 2 "$[1]" 2, .integer 3 "$[2]" 3,
    .integer 4 "$[3]" 4, .integer 5 "$[4]" 5]

/-- The sequence `[5, 4, 3, 2, 1]`. -/
def c5SeqRight : Node :=
  .sequence 1 "$" [.integer 1 "$[0]" 5, .integer 2 "$[1]" 4, .integer 3 "$[2]" 3,
    .integer 4 "$[3]" 2, .integer 5 "$[4]" 1]

/-- Positional mismatch at index 0 (1 versus 5). -/
def c5Diff0 : Diff := newDiff (some (.integer 1 "$[0]" 1)) (some (.integer 1 "$[0]" 5))

/-- Positional mismatch at index 1 (2 versus 4). -/
def c5Diff1 : Diff := newDiff (some (.integer 2 "$[1]" 2)) (some (.integer 2 "$[1]" 4))

/-- Positional mismatch at index 3 (4 versus 2). -/
def c5Diff3 : Diff := newDiff (some (.integer 4 "$[3]" 4)) (some (.integer 4 "$[3]" 2))

/-- Positional mismatch at index 4 (5 versus 1). -/
def c5Diff4 : Diff := newDiff (some (.integer 5 "$[4]" 5)) (some (.integer 5 "$[4]" 1))

/-- C5: in order-insensitive mode the aligner is exactly the
cancellation pass `ignoreIndexes` applied to the full positional diff
list; `[1,2,3,4,5]` versus `[5,4,3,2,1]` yields no difference in that
mode, while the default positional mode yields exactly the four
Modified differences at indices 0, 1, 3 and 4. -/
theorem c5_order_insensitive_cancellation :
    (∀ (cmp : Option Node → Option Node → List Diff) (ls rs : List Node),
        compareSequenceNodes cmp ls rs ⟨true⟩ =
          ignoreIndexes cmp (positionalSeqDiffs cmp ls rs))
    ∧ compareNodes (some c5SeqLeft) (some c5SeqRight) ⟨true⟩ = []
    ∧ compareNodes (some c5SeqLeft) (some c5SeqRight) ⟨false⟩ =
        [c5Diff0, c5Diff1, c5Diff3, c5Diff4]
    ∧ c5Diff0.diffType = DiffType.Modified
    ∧ c5Diff1.diffType = DiffType.Modified
    ∧ c5Diff3.diffType = DiffType.Modified
    ∧ c5Diff4.diffType = DiffType.Modified :=
  ⟨fun _ _ _ => rfl, rfl, rfl, rfl, rfl, rfl, rfl⟩

/-- Left mapping of the C4 counterexample: two keys on one line. -/
def c4MapLeft : Node := .mapping 1 "$" [("a", .integer 1 "$.a" 1), ("b", .integer 1 "$.b" 2)]

/-- Right mapping of the C4 counterexample: empty. -/
def c4MapRight : Node := .mapping 1 "$" []

/-- Deletion of key `a` (line 1, Deleted). -/
def c4DelA : Diff := newDiff (some (.integer 1 "$.a" 1)) none

/-- Deletion of key `b` (line 1, Deleted). -/
def c4DelB : Diff := newDiff (some (.integer 1 "$.b" 2)) none

/-- C4 counterexample: the two deletions share line and kind, so both
orderings of them are sorted permutations of the comparator's output —
outputs a run of the engine can produce, since the pre-sort order comes
from Go map iteration and the sort is unstable — yet the two orderings
are different lists.  Repeated invocations are therefore not guaranteed
byte-identical ordering. -/
theorem c4_tied_diffs_two_sorted_orders :
    compareNodes (some c4MapLeft) (some c4MapRight) (applyOptions []) = [c4DelA, c4DelB]
    ∧ validSortedOutput [c4DelA, c4DelB] [c4DelA, c4DelB]
    ∧ validSortedOutput [c4DelA, c4DelB] [c4DelB, c4DelA]
    ∧ [c4DelA, c4DelB] ≠ [c4DelB, c4DelA] := by
  refine ⟨rfl, ⟨List.Perm.refl _, ?_⟩, ⟨List.Perm.swap c4DelB c4DelA [], ?_⟩, ?_⟩
  · refine List.Pairwise.cons (fun d hd => ?_) (List.pairwise_singleton _ _)
    rw [List.mem_singleton] at hd
    subst hd
    decide
  · refine List.Pairwise.cons (fun d hd => ?_) (List.pairwise_singleton _ _)
    rw [List.mem_singleton] at hd
    subst hd
    decide
  · intro h
    injection h with h1 _
    have h2 := congrArg Diff.path h1
    exact absurd h2 (by decide)

/-- First positional diff of the cancellation example: key `p`, 7
versus 1. -/
def c4Dp : Diff := newDiff (some (.integer 1 "$[0].p" 7)) (some (.integer 1 "$[0].p" 1))

/-- Second positional diff of the cancellation example: key `q`, 7
versus 2. -/
def c4Dq : Diff := newDiff (some (.integer 1 "$[0].q" 7)) (some (.integer 1 "$[0].q" 2))

/-- Third positional diff of the cancellation example: key `r`, 9
versus 7. -/
def c4Dr : Diff := newDiff (some (.integer 2 "$[1].r" 9)) (some (.integer 2 "$[1].r" 7))

/-- Left mapping at index 0 of the cancellation example. -/
def c4Lm0 : Node := .mapping 1 "$[0]" [("p", .integer 1 "$[0].p" 7), ("q", .integer 1 "$[0].q" 7)]

/-- Left mapping at index 1 of the cancellation example. -/
def c4Lm1 : Node := .mapping 2 "$[1]" [("r", .integer 2 "$[1].r" 9)]

/-- Right mapping at index 0 of the cancellation example. -/
def c4Rm0 : Node := .mapping 1 "$[0]" [("p", .integer 1 "$[0].p" 1), ("q", .integer 1 "$[0].q" 2)]

/-- Right mapping at index 1 of the cancellation example. -/
def c4Rm1 : Node := .mapping 2 "$[1]" [("r", .integer 2 "$[1].r" 7)]

/-- The left sequence of the cancellation example. -/
def c4SeqLeft : Node := .sequence 1 "$" [c4Lm0, c4Lm1]

/-- The right sequence of the cancellation example. -/
def c4SeqRight : Node := .sequence 1 "$" [c4Rm0, c4Rm1]

/-- C4 amended: determinism holds only up to the engine's two sources
of run-to-run variation.  Ordering: the engine's sort yields a sorted
permutation of the difference list a run produced, and all sorted
permutations of that list coincide whenever no two of its differences
share both source line and diff kind (equal sort keys); differences
sharing both may come out in either order.  Content, under
order-insensitive sequence mode: the greedy cancellation consumes the
positional diffs in map-iteration order, and the remaining conjuncts
run the engine on the sequences of mappings
`[(p: 7, q: 7), (r: 9)]` versus `[(p: 1, q: 2), (r: 7)]` under the two
admissible map orders of the first mapping's keys — the two positional
diff lists are permutations of each other, yet the left `7` cancels
against the right `7` through key `p` in one run and through key `q`
in the other, so the cancelled outputs are not even permutations of
each other: the produced multiset itself varies across runs. -/
theorem c4_determinism_up_to_ties_and_cancellation :
    (∀ ds : DocDiffs, validSortedOutput ds (sortDiffs ds))
    ∧ (∀ ds out₁ out₂ : DocDiffs,
        validSortedOutput ds out₁ → validSortedOutput ds out₂ →
        List.Pairwise (fun a b => sortKey a ≠ sortKey b) ds → out₁ = out₂)
    ∧ positionalSeqDiffs (fun a b => compareNodes a b ⟨true⟩) [c4Lm0, c4Lm1] [c4Rm0, c4Rm1]
        = [c4Dp, c4Dq, c4Dr]
    ∧ List.Perm [c4Dp, c4Dq, c4Dr] [c4Dq, c4Dp, c4Dr]
    ∧ compareNodes (some c4SeqLeft) (some c4SeqRight) ⟨true⟩ =
        [newDiff none (some (.integer 1 "$[0].p" 1)), c4Dq,
         newDiff (some (.integer 2 "$[1].r" 9)) none]
    ∧ ignoreIndexes (fun a b => compareNodes a b ⟨true⟩) [c4Dq, c4Dp, c4Dr] =
        [newDiff none (some (.integer 1 "$[0].q" 2)), c4Dp,
         newDiff (some (.integer 2 "$[1].r" 9)) none]
    ∧ ¬ List.Perm
        [newDiff none (some (.integer 1 "$[0].p" 1)), c4Dq,
         newDiff (some (.integer 2 "$[1].r" 9)) none]
        [newDiff none (some (.integer 1 "$[0].q" 2)), c4Dp,
         newDiff (some (.integer 2 "$[1].r" 9)) none] := by
  refine ⟨?_, ?_, rfl, List.Perm.swap c4Dq c4Dp [c4Dr], rfl, rfl, ?_⟩
  · intro ds
    exact ⟨(sortDiffs_perm ds).symm, sortDiffs_sorted ds⟩
  · intro ds out₁ out₂ h₁ h₂ hk
    have hk₁ : List.Pairwise (fun a b => sortKey a ≠ sortKey b) out₁ := by
      refine (List.Perm.pairwise_iff ?_ h₁.1).mp hk
      intro a b hab
      omega
    exact sorted_perm_unique out₁ out₂ (h₁.1.symm.trans h₂.1) h₁.2 h₂.2 hk₁
  · intro h
    have hmem := h.mem_iff.mp (List.mem_cons_self _ _)
    rcases List.mem_cons.mp hmem with h1 | hmem
    · exact absurd (congrArg Diff.path h1) (by decide)
    · rcases List.mem_cons.mp hmem with h1 | hmem
      · exact absurd (congrArg Diff.diffType h1) (by decide)
      · rcases List.mem_cons.mp hmem with h1 | hmem
        · exact absurd (congrArg Diff.diffType h1) (by decide)
        · cases hmem

/-- Closed instance of the uniqueness conjunct of the amended C4
theorem at a concrete one-element diff list, discharging its
hypotheses by computation. -/
theorem c4_order_deterministic_witness : [c4DelA] = [c4DelA] :=
  c4_determinism_up_to_ties_and_cancellation.2.1 [c4DelA] [c4DelA] [c4DelA]
    ⟨List.Perm.refl _, List.pairwise_singleton _ _⟩
    ⟨List.Perm.refl _, List.pairwise_singleton _ _⟩
    (List.pairwise_singleton _ _)

/-!
Adequacy of the fuel: the remainder of the file shows that the fueled
comparator is fuel-independent once the fuel reaches the combined size
of its arguments — so the `compareNodes` wrapper, whose fuel always
does, computes the fuel-free recursion of the Go source.  The proof
needs congruence lemmas for the helper loops (they only consult the
comparator on nodes drawn from their arguments) and a bound on the
nodes stored in emitted diffs (they are subtrees of the inputs).
-/

/-- An optional node's size is positive. -/
theorem Node.optionSize_pos (x : Option Node) : 1 ≤ Node.optionSize x := by
  cases x <;> simp [Node.optionSize]

/-- Unfolding equation kept as a rewrite rule (the definition itself is
by cases, which `omega` cannot see through). -/
theorem Node.optionSize_some (n : Node) : Node.optionSize (some n) = 1 + n.size := rfl

/-- Unfolding equation for the nil node. -/
theorem Node.optionSize_none : Node.optionSize none = 1 := rfl

/-- A successful lookup comes from a member pair. -/
theorem lookup_eq_some_mem {k : String} {v : Node} {l : List (String × Node)}
    (h : List.lookup k l = some v) : (k, v) ∈ l := by
  induction l with
  | nil => cases h
  | cons hd tl ih =>
    obtain ⟨k₀, v₀⟩ := hd
    by_cases he : (k == k₀) = true
    · simp only [List.lookup, he] at h
      rw [Option.some.injEq] at h
      subst h
      rw [eq_of_beq he]
      exact List.mem_cons_self _ _
    · rw [Bool.not_eq_true] at he
      simp only [List.lookup, he] at h
      exact List.mem_cons_of_mem _ (ih h)

/-- The left-keys loop only consults the comparator on its own entries
and the right values they look up. -/
theorem compareMappingKeys_congr (cmp₁ cmp₂ : Option Node → Option Node → List Diff)
    (lm rm : List (String × Node))
    (h : ∀ kv ∈ lm, ∀ rv, List.lookup kv.1 rm = some rv →
      cmp₁ (some kv.2) (some rv) = cmp₂ (some kv.2) (some rv)) :
    compareMappingKeys cmp₁ lm rm = compareMappingKeys cmp₂ lm rm := by
  induction lm with
  | nil => rfl
  | cons hd tl ih =>
    obtain ⟨k, v⟩ := hd
    simp only [compareMappingKeys]
    rw [ih fun kv hkv rv hrv => h kv (List.mem_cons_of_mem _ hkv) rv hrv]
    cases hlk : List.lookup k rm with
    | none => rfl
    | some rv =>
      exact congrArg (fun t => t ++ compareMappingKeys cmp₂ tl rm)
        (h (k, v) (List.mem_cons_self _ _) rv hlk)

/-- The positional tail only consults the comparator on its elements. -/
theorem positionalSeqTail_congr (cmp₁ cmp₂ : Option Node → Option Node → List Diff)
    (rs : List Node) (h : ∀ w ∈ rs, cmp₁ none (some w) = cmp₂ none (some w)) :
    positionalSeqTail cmp₁ rs = positionalSeqTail cmp₂ rs := by
  induction rs with
  | nil => rfl
  | cons hd tl ih =>
    simp only [positionalSeqTail]
    rw [h hd (List.mem_cons_self _ _),
      ih fun w hw => h w (List.mem_cons_of_mem _ hw)]

/-- The positional loop only consults the comparator on its elements. -/
theorem positionalSeqDiffs_congr (cmp₁ cmp₂ : Option Node → Option Node → List Diff) :
    ∀ (ls rs : List Node),
      (∀ v ∈ ls, ∀ w ∈ rs, cmp₁ (some v) (some w) = cmp₂ (some v) (some w)) →
      (∀ v ∈ ls, cmp₁ (some v) none = cmp₂ (some v) none) →
      (∀ w ∈ rs, cmp₁ none (some w) = cmp₂ none (some w)) →
      positionalSeqDiffs cmp₁ ls rs = positionalSeqDiffs cmp₂ ls rs := by
  intro ls
  induction ls with
  | nil => exact fun rs _ _ hr => positionalSeqTail_congr cmp₁ cmp₂ rs hr
  | cons hd tl ih =>
    intro rs hb hl hr
    cases rs with
    | nil =>
      simp only [positionalSeqDiffs]
      rw [hl hd (List.mem_cons_self _ _),
        ih [] (fun v _ w hw => absurd hw (List.not_mem_nil w))
          (fun v hv => hl v (List.mem_cons_of_mem _ hv))
          (fun w hw => absurd hw (List.not_mem_nil w))]
    | cons rhd rtl =>
      simp only [positionalSeqDiffs]
      rw [hb hd (List.mem_cons_self _ _) rhd (List.mem_cons_self _ _),
        ih rtl
          (fun v hv w hw =>
            hb v (List.mem_cons_of_mem _ hv) w (List.mem_cons_of_mem _ hw))
          (fun v hv => hl v (List.mem_cons_of_mem _ hv))
          (fun w hw => hr w (List.mem_cons_of_mem _ hw))]

/-- The cancellation scan only consults the comparator on its left node
and the present members of the right array. -/
theorem findCancelIdx_congr (cmp₁ cmp₂ : Option Node → Option Node → List Diff)
    (ln : Node) :
    ∀ (rights : List (Option Node)) (k : Nat),
      (∀ b ∈ rights, ∀ bn, b = some bn →
        cmp₁ (some ln) (some bn) = cmp₂ (some ln) (some bn)) →
      findCancelIdx cmp₁ ln rights k = findCancelIdx cmp₂ ln rights k := by
  intro rights
  induction rights with
  | nil => intro k _; rfl
  | cons b rest ih =>
    intro k h
    cases b with
    | none =>
      simp only [findCancelIdx]
      exact ih (k + 1) fun b hb bn hbn => h b (List.mem_cons_of_mem _ hb) bn hbn
    | some bn =>
      simp only [findCancelIdx]
      rw [h (some bn) (List.mem_cons_self _ _) bn rfl]
      by_cases hc : (cmp₂ (some ln) (some bn)).length = 0
      · simp [hc]
      · simp only [hc, if_false]
        exact ih (k + 1) fun b hb bn' hbn => h b (List.mem_cons_of_mem _ hb) bn' hbn

/-- The cancellation loop only consults the comparator on present
members of its two arrays. -/
theorem cancelPairs_congr (cmp₁ cmp₂ : Option Node → Option Node → List Diff) :
    ∀ (lefts rights : List (Option Node)),
      (∀ a ∈ lefts, ∀ an, a = some an → ∀ b ∈ rights, ∀ bn, b = some bn →
        cmp₁ (some an) (some bn) = cmp₂ (some an) (some bn)) →
      cancelPairs cmp₁ lefts rights = cancelPairs cmp₂ lefts rights := by
  intro lefts
  induction lefts with
  | nil => intro rights _; rfl
  | cons a rest ih =>
    intro rights h
    cases a with
    | none =>
      simp only [cancelPairs]
      rw [ih rights fun a ha an han b hb bn hbn =>
        h a (List.mem_cons_of_mem _ ha) an han b hb bn hbn]
    | some an =>
      simp only [cancelPairs]
      rw [findCancelIdx_congr cmp₁ cmp₂ an rights 0 fun b hb bn hbn =>
        h (some an) (List.mem_cons_self _ _) an rfl b hb bn hbn]
      cases hf : findCancelIdx cmp₂ an rights 0 with
      | none =>
        simp only
        rw [ih rights fun a ha an' han b hb bn hbn =>
          h a (List.mem_cons_of_mem _ ha) an' han b hb bn hbn]
      | some ir =>
        simp only
        rw [ih (rights.set ir none) fun a ha an' han b hb bn hbn => by
          rcases List.mem_or_eq_of_mem_set hb with hb' | hb'
          · exact h a (List.mem_cons_of_mem _ ha) an' han b hb' bn hbn
          · rw [hb'] at hbn
            cases hbn]

/-- The whole cancellation pass only consults the comparator on node
pairs drawn from the input diffs. -/
theorem ignoreIndexes_congr (cmp₁ cmp₂ : Option Node → Option Node → List Diff)
    (diffs : List Diff)
    (h : ∀ d ∈ diffs, ∀ an, d.leftNode = some an → ∀ d' ∈ diffs, ∀ bn,
      d'.rightNode = some bn → cmp₁ (some an) (some bn) = cmp₂ (some an) (some bn)) :
    ignoreIndexes cmp₁ diffs = ignoreIndexes cmp₂ diffs := by
  unfold ignoreIndexes
  rw [cancelPairs_congr cmp₁ cmp₂ (diffs.map (·.leftNode)) (diffs.map (·.rightNode))
    fun a ha an han b hb bn hbn => by
      obtain ⟨d, hd, hda⟩ := List.mem_map.mp ha
      obtain ⟨d', hd', hdb⟩ := List.mem_map.mp hb
      exact h d hd an (hda.trans han) d' hd' bn (hdb.trans hbn)]

/-- A mapping's entry values are strictly smaller than the node; for a
non-mapping node the entry list is empty and the claim is vacuous. -/
theorem Node.entry_size_bound (r : Node) :
    ∀ kv ∈ r.mappingValues, 1 + Node.size kv.2 ≤ Node.size r := by
  cases r <;> simp only [Node.mappingValues] <;> intro kv hkv
  case mapping la pa vs =>
    have := Node.size_lt_of_mem_entries hkv
    simp only [Node.size]
    omega
  all_goals cases hkv

/-- A sequence's values are strictly smaller than the node. -/
theorem Node.value_size_bound (r : Node) :
    ∀ v ∈ r.sequenceValues, 1 + Node.size v ≤ Node.size r := by
  cases r <;> simp only [Node.sequenceValues] <;> intro v hv
  case sequence la pa vs =>
    have := Node.size_lt_of_mem_list hv
    simp only [Node.size]
    omega
  all_goals cases hv

/-- Diffs emitted by the left-keys loop hold nodes bounded by the two
entry lists' bounds. -/
theorem compareMappingKeys_bound (cmp : Option Node → Option Node → List Diff)
    (Lb Rb : Nat)
    (hcmp : ∀ a b d, d ∈ cmp a b →
      Node.optionSize d.leftNode ≤ Node.optionSize a
      ∧ Node.optionSize d.rightNode ≤ Node.optionSize b)
    (rm : List (String × Node)) (hr : ∀ kv ∈ rm, 1 + Node.size kv.2 ≤ Rb)
    (hRb : 1 ≤ Rb) :
    ∀ lm : List (String × Node), (∀ kv ∈ lm, 1 + Node.size kv.2 ≤ Lb) →
      ∀ d ∈ compareMappingKeys cmp lm rm,
        Node.optionSize d.leftNode ≤ Lb ∧ Node.optionSize d.rightNode ≤ Rb := by
  intro lm
  induction lm with
  | nil => intro _ d hd; cases hd
  | cons hd0 tl ih =>
    intro hl d hd
    obtain ⟨k, v⟩ := hd0
    simp only [compareMappingKeys] at hd
    rcases List.mem_append.mp hd with hmem | hmem
    · have h1 := hl (k, v) (List.mem_cons_self _ _)
      simp only at h1
      cases hlk : List.lookup k rm with
      | none =>
        rw [hlk] at hmem
        simp only [List.mem_singleton] at hmem
        subst hmem
        constructor
        · simp only [newDiff, wrapMappingValueNode, Node.optionSize]
          omega
        · simp only [newDiff, Node.optionSize]
          omega
      | some rv =>
        rw [hlk] at hmem
        simp only at hmem
        have hb := hcmp (some v) (some rv) d hmem
        have h2 := hr (k, rv) (lookup_eq_some_mem hlk)
        simp only at h2
        simp only [Node.optionSize_some, Node.optionSize_none] at hb ⊢
        constructor
        · omega
        · omega
    · exact ih (fun kv hkv => hl kv (List.mem_cons_of_mem _ hkv)) d hmem

/-- Diffs emitted by the positional tail hold nodes bounded by the
right list's bound. -/
theorem positionalSeqTail_bound (cmp : Option Node → Option Node → List Diff)
    (Lb Rb : Nat)
    (hcmp : ∀ a b d, d ∈ cmp a b →
      Node.optionSize d.leftNode ≤ Node.optionSize a
      ∧ Node.optionSize d.rightNode ≤ Node.optionSize b)
    (hLb : 1 ≤ Lb) :
    ∀ rs : List Node, (∀ w ∈ rs, 1 + Node.size w ≤ Rb) →
      ∀ d ∈ positionalSeqTail cmp rs,
        Node.optionSize d.leftNode ≤ Lb ∧ Node.optionSize d.rightNode ≤ Rb := by
  intro rs
  induction rs with
  | nil => intro _ d hd; cases hd
  | cons hd0 tl ih =>
    intro hr d hd
    simp only [positionalSeqTail] at hd
    rcases List.mem_append.mp hd with hmem | hmem
    · have hb := hcmp none (some hd0) d hmem
      have h2 := hr hd0 (List.mem_cons_self _ _)
      simp only [Node.optionSize_some, Node.optionSize_none] at hb
      constructor <;> omega
    · exact ih (fun w hw => hr w (List.mem_cons_of_mem _ hw)) d hmem

/-- Diffs emitted by the positional loop hold nodes bounded by the two
lists' bounds. -/
theorem positionalSeqDiffs_bound (cmp : Option Node → Option Node → List Diff)
    (Lb Rb : Nat)
    (hcmp : ∀ a b d, d ∈ cmp a b →
      Node.optionSize d.leftNode ≤ Node.optionSize a
      ∧ Node.optionSize d.rightNode ≤ Node.optionSize b)
    (hLb : 1 ≤ Lb) (hRb : 1 ≤ Rb) :
    ∀ (ls rs : List Node), (∀ v ∈ ls, 1 + Node.size v ≤ Lb) →
      (∀ w ∈ rs, 1 + Node.size w ≤ Rb) →
      ∀ d ∈ positionalSeqDiffs cmp ls rs,
        Node.optionSize d.leftNode ≤ Lb ∧ Node.optionSize d.rightNode ≤ Rb := by
  intro ls
  induction ls with
  | nil =>
    intro rs _ hr d hd
    exact positionalSeqTail_bound cmp Lb Rb hcmp hLb rs hr d hd
  | cons hd0 tl ih =>
    intro rs hl hr d hd
    cases rs with
    | nil =>
      simp only [positionalSeqDiffs] at hd
      rcases List.mem_append.mp hd with hmem | hmem
      · have hb := hcmp (some hd0) none d hmem
        have h1 := hl hd0 (List.mem_cons_self _ _)
        simp only [Node.optionSize_some, Node.optionSize_none] at hb ⊢
        constructor <;> omega
      · exact ih [] (fun v hv => hl v (List.mem_cons_of_mem _ hv)) hr d hmem
    | cons rhd rtl =>
      simp only [positionalSeqDiffs] at hd
      rcases List.mem_append.mp hd with hmem | hmem
      · have hb := hcmp (some hd0) (some rhd) d hmem
        have h1 := hl hd0 (List.mem_cons_self _ _)
        have h2 := hr rhd (List.mem_cons_self _ _)
        simp only [Node.optionSize_some, Node.optionSize_none] at hb ⊢
        constructor <;> omega
      · exact ih rtl (fun v hv => hl v (List.mem_cons_of_mem _ hv))
          (fun w hw => hr w (List.mem_cons_of_mem _ hw)) d hmem

/-- Setting one slot of the right array to nil leaves every slot either
unchanged or nil. -/
theorem getD_set_none (l : List (Option Node)) (ir i : Nat) :
    (l.set ir none).getD i none = l.getD i none ∨ (l.set ir none).getD i none = none := by
  rw [List.getD_eq_getElem?_getD, List.getD_eq_getElem?_getD, List.getElem?_set]
  by_cases h : ir = i
  · right
    subst h
    by_cases h2 : ir < l.length <;> simp [h2]
  · left
    simp [h]

/-- Each slot of the cancellation loop's output arrays is either the
corresponding input slot or nil. -/
theorem cancelPairs_getD (cmp : Option Node → Option Node → List Diff) :
    ∀ (lefts rights : List (Option Node)) (i : Nat),
      ((cancelPairs cmp lefts rights).1.getD i none = lefts.getD i none
        ∨ (cancelPairs cmp lefts rights).1.getD i none = none)
      ∧ ((cancelPairs cmp lefts rights).2.getD i none = rights.getD i none
        ∨ (cancelPairs cmp lefts rights).2.getD i none = none) := by
  intro lefts
  induction lefts with
  | nil =>
    intro rights i
    exact ⟨Or.inr rfl, Or.inl rfl⟩
  | cons a rest ih =>
    intro rights i
    cases a with
    | none =>
      rcases hp : cancelPairs cmp rest rights with ⟨ls, rs⟩
      simp only [cancelPairs, hp]
      constructor
      · cases i with
        | zero => exact Or.inr rfl
        | succ j =>
          have h1 := (ih rights j).1
          rw [hp] at h1
          simpa using h1
      · have h2 := (ih rights i).2
        rw [hp] at h2
        exact h2
    | some an =>
      cases hf : findCancelIdx cmp an rights 0 with
      | none =>
        rcases hp : cancelPairs cmp rest rights with ⟨ls, rs⟩
        simp only [cancelPairs, hf, hp]
        constructor
        · cases i with
          | zero => exact Or.inl rfl
          | succ j =>
            have h1 := (ih rights j).1
            rw [hp] at h1
            simpa using h1
        · have h2 := (ih rights i).2
          rw [hp] at h2
          exact h2
      | some ir =>
        rcases hp : cancelPairs cmp rest (rights.set ir none) with ⟨ls, rs⟩
        simp only [cancelPairs, hf, hp]
        constructor
        · cases i with
          | zero => exact Or.inr rfl
          | succ j =>
            have h1 := (ih (rights.set ir none) j).1
            rw [hp] at h1
            simpa using h1
        · have h2 := (ih (rights.set ir none) i).2
          rw [hp] at h2
          rcases h2 with h2 | h2
          · rcases getD_set_none rights ir i with h3 | h3
            · exact Or.inl (h2.trans h3)
            · exact Or.inr (h2.trans h3)
          · exact Or.inr h2

/-- Diffs rebuilt by the cancellation pass hold nodes taken from the
input diffs at the same index (or nil), so any bound on the input
components carries over. -/
theorem ignoreIndexes_bound (cmp : Option Node → Option Node → List Diff)
    (Lb Rb : Nat) (diffs : List Diff)
    (hin : ∀ d ∈ diffs, Node.optionSize d.leftNode ≤ Lb ∧ Node.optionSize d.rightNode ≤ Rb)
    (hLb : 1 ≤ Lb) (hRb : 1 ≤ Rb) :
    ∀ d ∈ ignoreIndexes cmp diffs,
      Node.optionSize d.leftNode ≤ Lb ∧ Node.optionSize d.rightNode ≤ Rb := by
  intro d hd
  unfold ignoreIndexes at hd
  rcases hp : cancelPairs cmp (diffs.map (·.leftNode)) (diffs.map (·.rightNode)) with ⟨ls, rs⟩
  rw [hp] at hd
  obtain ⟨i, hi, hf⟩ := List.mem_filterMap.mp hd
  simp only at hf
  split at hf
  · cases hf
  · rw [Option.some.injEq] at hf
    subst hf
    rw [List.mem_range] at hi
    have hspec := cancelPairs_getD cmp (diffs.map (·.leftNode)) (diffs.map (·.rightNode)) i
    rw [hp] at hspec
    have hmem : diffs[i] ∈ diffs := List.getElem_mem hi
    have hb := hin diffs[i] hmem
    have hmapl : (diffs.map (·.leftNode)).getD i none = diffs[i].leftNode := by
      rw [List.getD_eq_getElem?_getD, List.getElem?_map, List.getElem?_eq_getElem hi]
      rfl
    have hmapr : (diffs.map (·.rightNode)).getD i none = diffs[i].rightNode := by
      rw [List.getD_eq_getElem?_getD, List.getElem?_map, List.getElem?_eq_getElem hi]
      rfl
    constructor
    · show Node.optionSize (ls.getD i none) ≤ Lb
      rcases hspec.1 with h | h
      · rw [h, hmapl]
        exact hb.1
      · rw [h]
        exact hLb
    · show Node.optionSize (rs.getD i none) ≤ Rb
      rcases hspec.2 with h | h
      · rw [h, hmapr]
        exact hb.2
      · rw [h]
        exact hRb

/-- Every diff the fueled comparator emits holds, on each side, a node
no larger than the corresponding input (it is the input itself, one of
its subtrees, or nil). -/
theorem compareNodesF_bound (fuel : Nat) :
    ∀ (ln rn : Option Node) (o : compareOptions) (d : Diff), d ∈ compareNodesF fuel ln rn o →
      Node.optionSize d.leftNode ≤ Node.optionSize ln
      ∧ Node.optionSize d.rightNode ≤ Node.optionSize rn := by
  induction fuel with
  | zero => intro ln rn o d hd; cases hd
  | succ f ih =>
    intro ln rn o d hd
    have hcmp : ∀ a b d, d ∈ compareNodesF f a b o →
        Node.optionSize d.leftNode ≤ Node.optionSize a
        ∧ Node.optionSize d.rightNode ≤ Node.optionSize b :=
      fun a b d hd => ih a b o d hd
    match ln, rn with
    | none, none => cases hd
    | none, some r =>
      rw [show compareNodesF (f + 1) none (some r) o = [newDiff none (some r)] from rfl,
        List.mem_singleton] at hd
      subst hd
      exact ⟨le_refl _, le_refl _⟩
    | some l, none =>
      rw [show compareNodesF (f + 1) (some l) none o = [newDiff (some l) none] from rfl,
        List.mem_singleton] at hd
      subst hd
      exact ⟨le_refl _, le_refl _⟩
    | some l, some r =>
      rw [compareNodesF] at hd
      by_cases hc : comparableNodes l r = false
      · rw [if_pos hc, List.mem_singleton] at hd
        subst hd
        exact ⟨le_refl _, le_refl _⟩
      · rw [if_neg hc] at hd
        split at hd
        · -- mapping
          unfold compareMappingNodes at hd
          simp only at hd
          rcases List.mem_append.mp hd with hmem | hmem
          · refine compareMappingKeys_bound _ (Node.optionSize (some l))
              (Node.optionSize (some r)) hcmp _ ?_ (Node.optionSize_pos _) _ ?_ d hmem
            · intro kv hkv
              have := Node.entry_size_bound r kv (mem_of_mem_mappingValueNodesIntoMap hkv)
              rw [Node.optionSize_some]
              omega
            · intro kv hkv
              have := Node.entry_size_bound l kv (mem_of_mem_mappingValueNodesIntoMap hkv)
              rw [Node.optionSize_some]
              omega
          · obtain ⟨kv, hkv, hd'⟩ := List.mem_map.mp hmem
            subst hd'
            have hkv' := mem_of_mem_mappingValueNodesIntoMap (List.mem_of_mem_filter hkv)
            have := Node.entry_size_bound r kv hkv'
            constructor
            · rw [show (newDiff none (some (wrapMappingValueNode kv.2))).leftNode = none
                from rfl, Node.optionSize_none]
              exact Node.optionSize_pos _
            · rw [show (newDiff none (some (wrapMappingValueNode kv.2))).rightNode
                = some kv.2 from rfl, Node.optionSize_some, Node.optionSize_some]
              omega
        · -- sequence
          unfold compareSequenceNodes at hd
          have hbound : ∀ d ∈ positionalSeqDiffs (fun a b => compareNodesF f a b o)
              l.sequenceValues r.sequenceValues,
              Node.optionSize d.leftNode ≤ Node.optionSize (some l)
              ∧ Node.optionSize d.rightNode ≤ Node.optionSize (some r) := by
            refine positionalSeqDiffs_bound _ _ _ hcmp (Node.optionSize_pos _)
              (Node.optionSize_pos _) _ _ ?_ ?_
            · intro v hv
              have := Node.value_size_bound l v hv
              rw [Node.optionSize_some]
              omega
            · intro w hw
              have := Node.value_size_bound r w hw
              rw [Node.optionSize_some]
              omega
          cases hi : o.ignoreSeqOrder
          · rw [hi] at hd
            simp only [Bool.false_eq_true, if_false] at hd
            exact hbound d hd
          · rw [hi] at hd
            simp only [if_true] at hd
            exact ignoreIndexes_bound _ _ _ _ hbound (Node.optionSize_pos _)
              (Node.optionSize_pos _) d hd
        · -- string
          split at hd
          · rw [List.mem_singleton] at hd
            subst hd
            exact ⟨le_refl _, le_refl _⟩
          · cases hd
        · -- literal
          split at hd
          · rw [List.mem_singleton] at hd
            subst hd
            exact ⟨le_refl _, le_refl _⟩
          · cases hd
        · -- integer
          split at hd
          · rw [List.mem_singleton] at hd
            subst hd
            exact ⟨le_refl _, le_refl _⟩
          · cases hd
        · -- float
          split at hd
          · rw [List.mem_singleton] at hd
            subst hd
            exact ⟨le_refl _, le_refl _⟩
          · cases hd
        · -- bool
          split at hd
          · rw [List.mem_singleton] at hd
            subst hd
            exact ⟨le_refl _, le_refl _⟩
          · cases hd
        · -- infinity
          split at hd
          · rw [List.mem_singleton] at hd
            subst hd
            exact ⟨le_refl _, le_refl _⟩
          · cases hd
        · -- null
          cases hd
        · -- nan
          cases hd
        · -- other
          cases hd

/-- Fuel adequacy: two fuels both at least the combined size of the
inputs give identical comparator results.  Consequently the
`compareNodes` wrapper — whose fuel exceeds that bound by construction
— computes the fuel-independent value of the Go recursion. -/
theorem compareNodesF_stable :
    ∀ (f₁ f₂ : Nat) (ln rn : Option Node) (o : compareOptions),
      Node.optionSize ln + Node.optionSize rn ≤ f₁ →
      Node.optionSize ln + Node.optionSize rn ≤ f₂ →
      compareNodesF f₁ ln rn o = compareNodesF f₂ ln rn o := by
  intro f₁
  induction f₁ using Nat.strong_induction_on with
  | _ f₁ IH =>
    intro f₂ ln rn o h₁ h₂
    have hlnp := Node.optionSize_pos ln
    have hrnp := Node.optionSize_pos rn
    match f₁, f₂ with
    | 0, _ => omega
    | _ + 1, 0 => omega
    | g₁ + 1, g₂ + 1 =>
      match ln, rn with
      | none, none => rfl
      | none, some r => rfl
      | some l, none => rfl
      | some l, some r =>
        simp only [Node.optionSize_some] at h₁ h₂
        have hsl := Node.size_pos l
        have hsr := Node.size_pos r
        simp only [compareNodesF]
        by_cases hc : comparableNodes l r = false
        · rw [if_pos hc, if_pos hc]
        · rw [if_neg hc, if_neg hc]
          cases htype : l.typeOf with
          | mappingType =>
            simp only [compareMappingNodes]
            have hkeys :
                compareMappingKeys (fun a b => compareNodesF g₁ a b o)
                  (mappingValueNodesIntoMap l.mappingValues)
                  (mappingValueNodesIntoMap r.mappingValues)
                = compareMappingKeys (fun a b => compareNodesF g₂ a b o)
                  (mappingValueNodesIntoMap l.mappingValues)
                  (mappingValueNodesIntoMap r.mappingValues) := by
              apply compareMappingKeys_congr
              intro kv hkv rv hrv
              have hb1 := Node.entry_size_bound l kv (mem_of_mem_mappingValueNodesIntoMap hkv)
              have hb2 := Node.entry_size_bound r (kv.1, rv)
                (mem_of_mem_mappingValueNodesIntoMap (lookup_eq_some_mem hrv))
              simp only at hb2
              refine IH g₁ (Nat.lt_succ_self g₁) g₂ (some kv.2) (some rv) o ?_ ?_ <;>
                simp only [Node.optionSize_some] <;> omega
            rw [hkeys]
          | sequenceType =>
            simp only [compareSequenceNodes]
            have hpos :
                positionalSeqDiffs (fun a b => compareNodesF g₁ a b o)
                  l.sequenceValues r.sequenceValues
                = positionalSeqDiffs (fun a b => compareNodesF g₂ a b o)
                  l.sequenceValues r.sequenceValues := by
              apply positionalSeqDiffs_congr
              · intro v hv w hw
                have hb1 := Node.value_size_bound l v hv
                have hb2 := Node.value_size_bound r w hw
                refine IH g₁ (Nat.lt_succ_self g₁) g₂ (some v) (some w) o ?_ ?_ <;>
                  simp only [Node.optionSize_some] <;> omega
              · intro v hv
                have hb1 := Node.value_size_bound l v hv
                refine IH g₁ (Nat.lt_succ_self g₁) g₂ (some v) none o ?_ ?_ <;>
                  simp only [Node.optionSize_some, Node.optionSize_none] <;> omega
              · intro w hw
                have hb2 := Node.value_size_bound r w hw
                refine IH g₁ (Nat.lt_succ_self g₁) g₂ none (some w) o ?_ ?_ <;>
                  simp only [Node.optionSize_some, Node.optionSize_none] <;> omega
            rw [hpos]
            cases hi : o.ignoreSeqOrder
            · simp only [Bool.false_eq_true, if_false]
            · simp only [if_true]
              have hin : ∀ d ∈ positionalSeqDiffs (fun a b => compareNodesF g₂ a b o)
                  l.sequenceValues r.sequenceValues,
                  Node.optionSize d.leftNode ≤ Node.size l
                  ∧ Node.optionSize d.rightNode ≤ Node.size r := by
                refine positionalSeqDiffs_bound _ _ _
                  (fun a b d hd => compareNodesF_bound g₂ a b o d hd) hsl hsr _ _
                  (Node.value_size_bound l) (Node.value_size_bound r)
              apply ignoreIndexes_congr
              intro d hd an han d' hd' bn hbn
              have hb1 := (hin d hd).1
              have hb2 := (hin d' hd').2
              rw [han, Node.optionSize_some] at hb1
              rw [hbn, Node.optionSize_some] at hb2
              refine IH g₁ (Nat.lt_succ_self g₁) g₂ (some an) (some bn) o ?_ ?_ <;>
                simp only [Node.optionSize_some] <;> omega
          | stringType => rfl
          | literalType => rfl
          | integerType => rfl
          | floatType => rfl
          | boolType => rfl
          | infinityType => rfl
          | nullType => rfl
          | nanType => rfl
          | otherType k => rfl

/-- With the wrapper's own fuel provably sufficient, the wrapper equals
the fueled comparator at any fuel past the size bound — the embedding's
result does not depend on the particular fuel chosen. -/
theorem compareNodes_eq_compareNodesF (ln rn : Option Node) (o : compareOptions)
    (fuel : Nat) (h : Node.optionSize ln + Node.optionSize rn ≤ fuel) :
    compareNodes ln rn o = compareNodesF fuel ln rn o := by
  unfold compareNodes
  exact compareNodesF_stable _ fuel ln rn o (by omega) h

/-- Closed instance of the fuel-adequacy equation at a concrete input. -/
theorem compareNodes_eq_compareNodesF_witness :
    compareNodes (some (Node.null 1 "$")) none ⟨false⟩ =
      compareNodesF 3 (some (Node.null 1 "$")) none ⟨false⟩ :=
  compareNodes_eq_compareNodesF (some (Node.null 1 "$")) none ⟨false⟩ 3 (by decide)
